import Mathlib

/-!
Verification of the structural JSON scanner of bgc-viewer
(src/backend/rust_extensions/src/lib.rs).

The scanner locates byte ranges of JSON objects inside the array that
follows the key `"records"`, and optionally the ranges of objects inside
the nested `"features"` array of each record.  The Rust code is embedded
shallowly: byte buffers are `List Nat` (each element an octet value),
the `while` loops become structural recursion over the remaining byte
list paired with an absolute position counter, and the fallible Python
surface (`PyResult`) becomes `Except ScanError`.

ASCII values used throughout:
  34 = quote, 44 = comma, 58 = colon, 91 = open bracket,
  92 = backslash, 93 = close bracket, 123 = open brace, 125 = close brace.
-/

namespace BGC

/-- Errors raised by the two public operations: `ioError` models a failed
file open/read (PyIOError); `formatError` models the PyValueError raised
when the anchor pattern or its opening bracket is missing. -/
inductive ScanError
  | ioError
  | formatError
deriving DecidableEq

/-- The anchor pattern `b"\"records\""` (the key text including quotes). -/
def recordsPattern : List Nat := [34, 114, 101, 99, 111, 114, 100, 115, 34]

/-- The anchor pattern `b"\"features\""` (the key text including quotes). -/
def featuresPattern : List Nat := [34, 102, 101, 97, 116, 117, 114, 101, 115, 34]

/-- `content.windows(k).position(|w| w == pat)`: index of the first
occurrence of `pat` as a contiguous sub-sequence of `content`.  (Rust's
`windows` panics for an empty needle; both patterns used here are
non-empty, and on non-empty patterns this definition agrees with it.) -/
def findPattern : List Nat → List Nat → Option Nat
  | [], _ => none
  | c :: rest, pat =>
    if (c :: rest).take pat.length = pat then some 0
    else (findPattern rest pat).map (· + 1)

/-- `slice.iter().position(|&b| b == target)`: index of the first
occurrence of the byte `target`. -/
def findByte : List Nat → Nat → Option Nat
  | [], _ => none
  | c :: rest, target =>
    if c = target then some 0
    else (findByte rest target).map (· + 1)

/-- The record-boundary scan loop of `scan_records` (lib.rs lines 57-106).
`l` is the remaining byte list (`content.drop pos`), `pos` the absolute
cursor, `depth` the signed brace depth, `recStart` the pending
`record_start`, and `acc` the ranges pushed so far.  Each returned range
is `(start, end)` with `end` one past the closing brace. -/
def scanLoop : List Nat → Nat → Int → Option Nat → Bool → Bool →
    List (Nat × Nat) → List (Nat × Nat)
  | [], _, _, _, _, _, acc => acc
  | b :: rest, pos, depth, recStart, inString, escapeNext, acc =>
    if escapeNext then
      scanLoop rest (pos + 1) depth recStart inString false acc
    else if b = 92 then
      scanLoop rest (pos + 1) depth recStart inString true acc
    else if b = 34 then
      scanLoop rest (pos + 1) depth recStart (!inString) escapeNext acc
    else if inString then
      scanLoop rest (pos + 1) depth recStart inString escapeNext acc
    else if b = 123 then
      scanLoop rest (pos + 1) (depth + 1)
        (if depth = 0 then some pos else recStart) inString escapeNext acc
    else if b = 125 then
      if depth - 1 = 0 then
        match recStart with
        | some s =>
          scanLoop rest (pos + 1) (depth - 1) none inString escapeNext
            (acc ++ [(s, pos + 1)])
        | none =>
          scanLoop rest (pos + 1) (depth - 1) recStart inString escapeNext acc
      else
        scanLoop rest (pos + 1) (depth - 1) recStart inString escapeNext acc
    else if b = 93 ∧ depth = 0 then
      acc
    else
      scanLoop rest (pos + 1) depth recStart inString escapeNext acc

/-- The buffer-level part of `scan_records` (after the file has been read):
locate the `"records"` pattern, the first `[` at or after it, and scan
from the byte after that bracket. -/
def scan_records_buf (content : List Nat) : Except ScanError (List (Nat × Nat)) :=
  match findPattern content recordsPattern with
  | none => .error .formatError
  | some recordsPos =>
    match findByte (content.drop recordsPos) 91 with
    | none => .error .formatError
    | some arrayStart =>
      let startPos := recordsPos + arrayStart + 1
      .ok (scanLoop (content.drop startPos) startPos 0 none false false [])

/-- `scan_records` (lib.rs lines 18-109).  The file read is modelled by an
`Option (List Nat)`: `none` means the file could not be opened or read to
completion (PyIOError), `some content` is a successful full read. -/
def scan_records (file : Option (List Nat)) : Except ScanError (List (Nat × Nat)) :=
  match file with
  | none => .error .ioError
  | some content => scan_records_buf content

/-- The feature scan loop of `scan_features_in_range` (lib.rs lines
249-301).  `l` is the remaining bytes of the record slice
(`slice.drop pos`), `pos` the slice-relative cursor, and `start` the
record's absolute start offset, added when a range is pushed. -/
def featLoop : List Nat → Nat → Nat → Int → Option Nat → Bool → Bool →
    List (Nat × Nat) → List (Nat × Nat)
  | [], _, _, _, _, _, _, acc => acc
  | b :: rest, pos, start, depth, featStart, inString, escapeNext, acc =>
    if escapeNext then
      featLoop rest (pos + 1) start depth featStart inString false acc
    else if b = 92 then
      featLoop rest (pos + 1) start depth featStart inString true acc
    else if b = 34 then
      featLoop rest (pos + 1) start depth featStart (!inString) escapeNext acc
    else if inString then
      featLoop rest (pos + 1) start depth featStart inString escapeNext acc
    else if b = 123 then
      featLoop rest (pos + 1) start (depth + 1)
        (if depth = 0 then some pos else featStart) inString escapeNext acc
    else if b = 125 then
      if depth - 1 = 0 then
        match featStart with
        | some fs =>
          featLoop rest (pos + 1) start (depth - 1) none inString escapeNext
            (acc ++ [(start + fs, start + pos + 1)])
        | none =>
          featLoop rest (pos + 1) start (depth - 1) featStart inString escapeNext acc
      else
        featLoop rest (pos + 1) start (depth - 1) featStart inString escapeNext acc
    else if b = 93 ∧ depth = 0 then
      acc
    else
      featLoop rest (pos + 1) start depth featStart inString escapeNext acc

/-- `scan_features_in_range` (lib.rs lines 223-304): scan for `"features"`
inside the record slice `content[start..e]`; a missing anchor or missing
bracket yields the empty list, never an error.  Pushed offsets are
absolute (`start` is added). -/
def scan_features_in_range (content : List Nat) (start e : Nat) : List (Nat × Nat) :=
  let record_slice := (content.drop start).take (e - start)
  match findPattern record_slice featuresPattern with
  | none => []
  | some featuresPos =>
    match findByte (record_slice.drop featuresPos) 91 with
    | none => []
    | some arrayStart =>
      featLoop (record_slice.drop (featuresPos + arrayStart + 1))
        (featuresPos + arrayStart + 1) start 0 none false false []

/-- The record-boundary scan loop of `scan_records_and_features` (lib.rs
lines 163-217).  Identical in structure to `scanLoop`, except that when a
record closes, `scan_features_in_range` is run on its range and the
triple `(start, end, features)` is pushed. -/
def scanLoopRF (content : List Nat) : List Nat → Nat → Int → Option Nat → Bool → Bool →
    List (Nat × Nat × List (Nat × Nat)) → List (Nat × Nat × List (Nat × Nat))
  | [], _, _, _, _, _, acc => acc
  | b :: rest, pos, depth, recStart, inString, escapeNext, acc =>
    if escapeNext then
      scanLoopRF content rest (pos + 1) depth recStart inString false acc
    else if b = 92 then
      scanLoopRF content rest (pos + 1) depth recStart inString true acc
    else if b = 34 then
      scanLoopRF content rest (pos + 1) depth recStart (!inString) escapeNext acc
    else if inString then
      scanLoopRF content rest (pos + 1) depth recStart inString escapeNext acc
    else if b = 123 then
      scanLoopRF content rest (pos + 1) (depth + 1)
        (if depth = 0 then some pos else recStart) inString escapeNext acc
    else if b = 125 then
      if depth - 1 = 0 then
        match recStart with
        | some s =>
          scanLoopRF content rest (pos + 1) (depth - 1) none inString escapeNext
            (acc ++ [(s, pos + 1, scan_features_in_range content s (pos + 1))])
        | none =>
          scanLoopRF content rest (pos + 1) (depth - 1) recStart inString escapeNext acc
      else
        scanLoopRF content rest (pos + 1) (depth - 1) recStart inString escapeNext acc
    else if b = 93 ∧ depth = 0 then
      acc
    else
      scanLoopRF content rest (pos + 1) depth recStart inString escapeNext acc

/-- `scan_records_and_features` (lib.rs lines 125-220), with the file read
modelled as in `scan_records`. -/
def scan_records_and_features (file : Option (List Nat)) :
    Except ScanError (List (Nat × Nat × List (Nat × Nat))) :=
  match file with
  | none => .error .ioError
  | some content =>
    match findPattern content recordsPattern with
    | none => .error .formatError
    | some recordsPos =>
      match findByte (content.drop recordsPos) 91 with
      | none => .error .formatError
      | some arrayStart =>
        let startPos := recordsPos + arrayStart + 1
        .ok (scanLoopRF content (content.drop startPos) startPos 0 none false false [])

/-! ### Concrete buffers from the spec's scenarios -/

/-- The 36-byte buffer of spec scenario 2, ASCII
`\x7b"records":[\x7b"features":[\x7b"x":1\x7d]\x7d]\x7d`. -/
def buf1 : List Nat :=
  [123, 34, 114, 101, 99, 111, 114, 100, 115, 34, 58, 91,
   123, 34, 102, 101, 97, 116, 117, 114, 101, 115, 34, 58, 91,
   123, 34, 120, 34, 58, 49, 125, 93, 125, 93, 125]

/-- The record object of scenario 2, ASCII `\x7b"features":[\x7b"x":1\x7d]\x7d`. -/
def obj1 : List Nat :=
  [123, 34, 102, 101, 97, 116, 117, 114, 101, 115, 34, 58, 91,
   123, 34, 120, 34, 58, 49, 125, 93, 125]

/-- The feature object of scenario 2, ASCII `\x7b"x":1\x7d`. -/
def featObj1 : List Nat := [123, 34, 120, 34, 58, 49, 125]

/-- The shared 12-byte document head, ASCII `\x7b"records":[`. -/
def docHead : List Nat := [123, 34, 114, 101, 99, 111, 114, 100, 115, 34, 58, 91]

/-- The record object of the string-robustness scenario, ASCII
`\x7b"note": "contains \x7d and ] chars"\x7d` (34 bytes). -/
def obj5 : List Nat :=
  [123, 34, 110, 111, 116, 101, 34, 58, 32, 34,
   99, 111, 110, 116, 97, 105, 110, 115, 32, 125, 32,
   97, 110, 100, 32, 93, 32, 99, 104, 97, 114, 115, 34, 125]

/-- The escaped-quote variant record object, ASCII
`\x7b"note": "a \\" b \x7d c"\x7d` (22 bytes: the string value holds an
escaped quote and an unescaped closing brace). -/
def obj5b : List Nat :=
  [123, 34, 110, 111, 116, 101, 34, 58, 32, 34,
   97, 32, 92, 34, 32, 98, 32, 125, 32, 99, 34, 125]

/-- The record object of spec scenario 3, ASCII
`\x7b"id":"a records value"\x7d` (24 bytes: the string value contains the
bare text `records` without surrounding quote bytes). -/
def obj8 : List Nat :=
  [123, 34, 105, 100, 34, 58, 34,
   97, 32, 114, 101, 99, 111, 114, 100, 115, 32, 118, 97, 108, 117, 101,
   34, 125]

/-- Buffer for the string-robustness scenario:
`docHead ++ obj5 ++ "]\x7d"`. -/
def buf5 : List Nat := docHead ++ obj5 ++ [93, 125]

/-- Buffer for the escaped-quote scenario: `docHead ++ obj5b ++ "]\x7d"`. -/
def buf5b : List Nat := docHead ++ obj5b ++ [93, 125]

/-- Buffer for spec scenario 3: `docHead ++ obj8 ++ "]\x7d"`. -/
def buf8 : List Nat := docHead ++ obj8 ++ [93, 125]

/-- A well-formed document whose first textual occurrence of the
`"records"` pattern is a decoy key nested inside another value, ASCII
`\x7b"a":\x7b"records":[5]\x7d,"records":[` (32 bytes). -/
def decoyHead : List Nat :=
  [123, 34, 97, 34, 58, 123, 34, 114, 101, 99, 111, 114, 100, 115, 34, 58,
   91, 53, 93, 125, 44, 34, 114, 101, 99, 111, 114, 100, 115, 34, 58, 91]

/-- The decoy document, ASCII
`\x7b"a":\x7b"records":[5]\x7d,"records":[\x7b"x":1\x7d]\x7d`:
well-formed JSON whose top-level `"records"` array holds exactly one
object, `featObj1`. -/
def decoyBuf : List Nat := decoyHead ++ featObj1 ++ [93, 125]

/-- A record whose only keys are `note` and `arr` — it has no `features`
key — but whose string value is the text `features`, ASCII
`\x7b"note":"features","arr":[\x7b"y":2\x7d]\x7d` (35 bytes).  The byte
pattern `"features"` (quotes included) occurs in it, as the string
value. -/
def objC3 : List Nat :=
  [123, 34, 110, 111, 116, 101, 34, 58,
   34, 102, 101, 97, 116, 117, 114, 101, 115, 34,
   44, 34, 97, 114, 114, 34, 58, 91,
   123, 34, 121, 34, 58, 50, 125, 93, 125]

/-- The document `\x7b"records":[\x7b"note":"features","arr":[\x7b"y":2\x7d]\x7d]\x7d`
(49 bytes): its single record contains no `features` key. -/
def bufC3 : List Nat := docHead ++ objC3 ++ [93, 125]

example : scan_records_and_features (some buf1) = .ok [(12, 34, [(25, 32)])] := by rfl
example : buf1 = docHead ++ obj1 ++ [93, 125] := by rfl
example : (buf1.drop 12).take (34 - 12) = obj1 := by rfl
example : (buf1.drop 25).take (32 - 25) = featObj1 := by rfl
example : scan_records (some buf5) = .ok [(12, 46)] := by rfl
example : (buf5.drop 12).take (46 - 12) = obj5 := by rfl
example : scan_records (some buf5b) = .ok [(12, 34)] := by rfl
example : scan_records (some buf8) = .ok [(12, 36)] := by rfl
example : (buf8.drop 12).take (36 - 12) = obj8 := by rfl
example : scan_records (some decoyBuf) = .ok [] := by rfl
set_option maxRecDepth 16384 in
example : scan_records_and_features (some bufC3) = .ok [(12, 47, [(38, 45)])] := by rfl

/-! ### A grammar of balanced byte sequences

`StrOk s` says `s` is a valid string body for the scanner: quotes appear
only escaped, so the closing quote that follows `s` is the first
unescaped quote.  `Bal u` says `u` is a balanced inner sequence as seen
by the scanner at brace depth ≥ 1: a concatenation of structurally inert
bytes, complete string literals and complete nested objects.  `IsObj o`
says `o` is a full JSON object chunk `"\x7b" ++ u ++ "\x7d"` with `u`
balanced.  Serialized well-formed JSON objects (with quotes and
backslashes escaped inside strings) satisfy `IsObj`. -/

/-- Valid scanner string body: every quote is preceded by a backslash. -/
inductive StrOk : List Nat → Prop
  | nil : StrOk []
  | plain (b : Nat) (t : List Nat) : b ≠ 34 → b ≠ 92 → StrOk t → StrOk (b :: t)
  | esc (b : Nat) (t : List Nat) : StrOk t → StrOk (92 :: b :: t)

/-- Balanced inner sequence at brace depth ≥ 1. -/
inductive Bal : List Nat → Prop
  | nil : Bal []
  | plain (b : Nat) (t : List Nat) :
      b ≠ 34 → b ≠ 92 → b ≠ 123 → b ≠ 125 → Bal t → Bal (b :: t)
  | str (s t : List Nat) : StrOk s → Bal t → Bal (34 :: s ++ 34 :: t)
  | obj (u t : List Nat) : Bal u → Bal t → Bal (123 :: u ++ 125 :: t)

/-- A complete JSON object chunk: an opening brace, a balanced inner
sequence, a closing brace. -/
def IsObj (o : List Nat) : Prop := ∃ u, Bal u ∧ o = 123 :: u ++ [125]

/-- Comma-separated concatenation of the serialized array elements
(the body of a canonical `"records"` array). -/
def joinComma : List (List Nat) → List Nat
  | [] => []
  | [o] => o
  | o :: rest => o ++ 44 :: joinComma rest

/-- The ranges the scanner is expected to produce for consecutive
objects starting at `pos`, each followed by a one-byte comma. -/
def rangesFrom : Nat → List (List Nat) → List (Nat × Nat)
  | _, [] => []
  | pos, o :: rest => (pos, pos + o.length) :: rangesFrom (pos + o.length + 1) rest

/-- A canonical records document: `"\x7b\"records\":[" ++ objects
separated by commas ++ "]" ++ suffix`. -/
def docOf (objs : List (List Nat)) (suffix : List Nat) : List Nat :=
  docHead ++ joinComma objs ++ 93 :: suffix

/-- The object `\x7b"x":1\x7d` is a well-formed object chunk. -/
lemma featObj1_isObj : IsObj featObj1 := by
  refine ⟨[34, 120, 34, 58, 49], ?_, by rfl⟩
  have h1 : StrOk [120] := .plain 120 [] (by decide) (by decide) .nil
  have h2 : Bal [58, 49] :=
    .plain 58 [49] (by decide) (by decide) (by decide) (by decide)
      (.plain 49 [] (by decide) (by decide) (by decide) (by decide) .nil)
  exact Bal.str [120] [58, 49] h1 h2

/-! ### Basic facts about the position/suffix bookkeeping -/

/-- Indexing into a dropped list. -/
lemma getElem?_drop_add (l : List Nat) (n m : Nat) : (l.drop n)[m]? = l[n + m]? := by
  induction l generalizing n with
  | nil => simp
  | cons c t ih =>
    cases n with
    | zero => simp
    | succ k =>
      rw [List.drop_succ_cons, ih k, Nat.succ_add]
      simp

/-- Splitting the suffix invariant `content.drop pos = b :: rest`. -/
lemma drop_cons_split {content : List Nat} {pos : Nat} {b : Nat} {rest : List Nat}
    (h : content.drop pos = b :: rest) :
    content[pos]? = some b ∧ content.drop (pos + 1) = rest ∧ pos < content.length := by
  refine ⟨?_, ?_, ?_⟩
  · have := getElem?_drop_add content pos 0
    rw [h] at this
    simp only [List.getElem?_cons_zero, Nat.add_zero] at this
    exact this.symm
  · rw [← List.tail_drop, h]
    rfl
  · by_contra hle
    rw [List.drop_eq_nil_of_le (by omega)] at h
    exact List.noConfusion h

/-- Invariant of the `scan_records` loop: every emitted range starts at
an opening brace, ends one past a closing brace, is non-degenerate, and
stays inside the buffer. -/
lemma scanLoop_inv (content : List Nat) :
    ∀ (l : List Nat) (pos : Nat) (depth : Int) (recStart : Option Nat)
      (inString escapeNext : Bool) (acc : List (Nat × Nat)),
      content.drop pos = l →
      (∀ r, recStart = some r → content[r]? = some 123 ∧ r ≤ pos) →
      (∀ q ∈ acc, content[q.1]? = some 123 ∧ content[q.2 - 1]? = some 125 ∧
        q.1 < q.2 ∧ q.2 ≤ content.length) →
      ∀ q ∈ scanLoop l pos depth recStart inString escapeNext acc,
        content[q.1]? = some 123 ∧ content[q.2 - 1]? = some 125 ∧
        q.1 < q.2 ∧ q.2 ≤ content.length := by
  intro l
  induction l with
  | nil =>
    intro pos depth recStart inString escapeNext acc _ _ hacc q hq
    rw [scanLoop] at hq
    exact hacc q hq
  | cons b rest ih =>
    intro pos depth recStart inString escapeNext acc hdrop hrec hacc q hq
    obtain ⟨hb, hrest, hlen⟩ := drop_cons_split hdrop
    have hrec' : ∀ r, recStart = some r → content[r]? = some 123 ∧ r ≤ pos + 1 :=
      fun r hr => ⟨(hrec r hr).1, Nat.le_succ_of_le (hrec r hr).2⟩
    cases recStart with
    | none =>
      simp only [scanLoop] at hq
      split_ifs at hq
      all_goals
        first
          | exact hacc q hq
          | (have hures : ∀ r, (none : Option Nat) = some r →
                 content[r]? = some 123 ∧ r ≤ pos + 1 := by
               intro r hr
               simp at hr
             exact ih _ _ _ _ _ _ hrest hures hacc q hq)
          | (have hnew : ∀ r, some pos = some r → content[r]? = some 123 ∧ r ≤ pos + 1 := by
               intro r hr
               obtain rfl : pos = r := Option.some.inj hr
               exact ⟨by rw [hb]; exact congrArg some (by omega), by omega⟩
             exact ih _ _ _ _ _ _ hrest hnew hacc q hq)
    | some s =>
      simp only [scanLoop] at hq
      split_ifs at hq
      all_goals
        first
          | exact hacc q hq
          | exact ih _ _ _ _ _ _ hrest hrec' hacc q hq
          | (have hnew : ∀ r, some pos = some r → content[r]? = some 123 ∧ r ≤ pos + 1 := by
               intro r hr
               obtain rfl : pos = r := Option.some.inj hr
               exact ⟨by rw [hb]; exact congrArg some (by omega), by omega⟩
             exact ih _ _ _ _ _ _ hrest hnew hacc q hq)
          | (have hnew : ∀ r, (none : Option Nat) = some r →
                 content[r]? = some 123 ∧ r ≤ pos + 1 := by
               intro r hr
               simp at hr
             have hacc2 : ∀ p ∈ acc ++ [(s, pos + 1)], content[p.1]? = some 123 ∧
                 content[p.2 - 1]? = some 125 ∧ p.1 < p.2 ∧ p.2 ≤ content.length := by
               intro p hp
               rcases List.mem_append.mp hp with hp | hp
               · exact hacc p hp
               · obtain rfl : p = (s, pos + 1) := by simpa using hp
                 obtain ⟨hs1, hs2⟩ := hrec s rfl
                 have hp125 : content[pos]? = some 125 := by
                   rw [hb]
                   exact congrArg some (by omega)
                 exact ⟨hs1, by simpa using hp125, by omega, by omega⟩
             exact ih _ _ _ _ _ _ hrest hnew hacc2 q hq)

/-- Invariant of the feature loop: every emitted pair is
`(start + p, start + pe + 1)` for slice positions `p ≤ pe < slice.length`
holding an opening and a closing brace respectively. -/
lemma featLoop_inv (slice : List Nat) (start : Nat) :
    ∀ (l : List Nat) (pos : Nat) (depth : Int) (featStart : Option Nat)
      (inString escapeNext : Bool) (acc : List (Nat × Nat)),
      slice.drop pos = l →
      (∀ r, featStart = some r → slice[r]? = some 123 ∧ r ≤ pos) →
      (∀ q ∈ acc, ∃ p pe, q = (start + p, start + pe + 1) ∧ p ≤ pe ∧
        pe < slice.length ∧ slice[p]? = some 123 ∧ slice[pe]? = some 125) →
      ∀ q ∈ featLoop l pos start depth featStart inString escapeNext acc,
        ∃ p pe, q = (start + p, start + pe + 1) ∧ p ≤ pe ∧
          pe < slice.length ∧ slice[p]? = some 123 ∧ slice[pe]? = some 125 := by
  intro l
  induction l with
  | nil =>
    intro pos depth featStart inString escapeNext acc _ _ hacc q hq
    rw [featLoop] at hq
    exact hacc q hq
  | cons b rest ih =>
    intro pos depth featStart inString escapeNext acc hdrop hfs hacc q hq
    obtain ⟨hb, hrest, hlen⟩ := drop_cons_split hdrop
    have hfs' : ∀ r, featStart = some r → slice[r]? = some 123 ∧ r ≤ pos + 1 :=
      fun r hr => ⟨(hfs r hr).1, Nat.le_succ_of_le (hfs r hr).2⟩
    cases featStart with
    | none =>
      simp only [featLoop] at hq
      split_ifs at hq
      all_goals
        first
          | exact hacc q hq
          | (have hures : ∀ r, (none : Option Nat) = some r →
                 slice[r]? = some 123 ∧ r ≤ pos + 1 := by
               intro r hr
               simp at hr
             exact ih _ _ _ _ _ _ hrest hures hacc q hq)
          | (have hnew : ∀ r, some pos = some r → slice[r]? = some 123 ∧ r ≤ pos + 1 := by
               intro r hr
               obtain rfl : pos = r := Option.some.inj hr
               exact ⟨by rw [hb]; exact congrArg some (by omega), by omega⟩
             exact ih _ _ _ _ _ _ hrest hnew hacc q hq)
    | some s =>
      simp only [featLoop] at hq
      split_ifs at hq
      all_goals
        first
          | exact hacc q hq
          | exact ih _ _ _ _ _ _ hrest hfs' hacc q hq
          | (have hnew : ∀ r, some pos = some r → slice[r]? = some 123 ∧ r ≤ pos + 1 := by
               intro r hr
               obtain rfl : pos = r := Option.some.inj hr
               exact ⟨by rw [hb]; exact congrArg some (by omega), by omega⟩
             exact ih _ _ _ _ _ _ hrest hnew hacc q hq)
          | (have hnew : ∀ r, (none : Option Nat) = some r →
                 slice[r]? = some 123 ∧ r ≤ pos + 1 := by
               intro r hr
               simp at hr
             have hacc2 : ∀ p ∈ acc ++ [(start + s, start + pos + 1)],
                 ∃ a pe, p = (start + a, start + pe + 1) ∧ a ≤ pe ∧
                   pe < slice.length ∧ slice[a]? = some 123 ∧ slice[pe]? = some 125 := by
               intro p hp
               rcases List.mem_append.mp hp with hp | hp
               · exact hacc p hp
               · obtain rfl : p = (start + s, start + pos + 1) := by simpa using hp
                 obtain ⟨hs1, hs2⟩ := hfs s rfl
                 refine ⟨s, pos, rfl, hs2, hlen, hs1, ?_⟩
                 rw [hb]
                 exact congrArg some (by omega)
             exact ih _ _ _ _ _ _ hrest hnew hacc2 q hq)

/-- Derived facts about `scan_features_in_range`: every returned feature
range lies inside `[start, e)`, is non-degenerate, stays inside the
buffer, and is brace-delimited. -/
lemma scan_features_in_range_inv (content : List Nat) (start e : Nat) :
    ∀ q ∈ scan_features_in_range content start e,
      start ≤ q.1 ∧ q.1 < q.2 ∧ q.2 ≤ e ∧ q.2 ≤ content.length ∧
      content[q.1]? = some 123 ∧ content[q.2 - 1]? = some 125 := by
  intro q hq
  set slice := (content.drop start).take (e - start) with hslice
  have hsl : slice.length ≤ e - start := by
    rw [hslice]
    exact le_trans (List.length_take_le _ _) le_rfl
  have hsl2 : slice.length ≤ content.length - start := by
    rw [hslice]
    simp [List.length_take, List.length_drop]
  have hmem : ∃ p pe, q = (start + p, start + pe + 1) ∧ p ≤ pe ∧
      pe < slice.length ∧ slice[p]? = some 123 ∧ slice[pe]? = some 125 := by
    rw [scan_features_in_range] at hq
    rw [← hslice] at hq
    split at hq
    · simp at hq
    · split at hq
      · simp at hq
      · exact featLoop_inv slice start _ _ _ _ _ _ _ rfl (by intro r hr; simp at hr)
          (by intro p hp; simp at hp) q hq
  obtain ⟨p, pe, rfl, hple, hpe, hp123, hpe125⟩ := hmem
  have hidx : ∀ (i : Nat) (v : Nat), i < slice.length → slice[i]? = some v →
      content[start + i]? = some v := by
    intro i v hi hv
    rw [hslice] at hv
    rw [List.getElem?_take_of_lt (by omega : i < e - start)] at hv
    rwa [getElem?_drop_add] at hv
  have hstartlen : start ≤ content.length := by
    by_contra hc
    have : content.drop start = [] := List.drop_eq_nil_of_le (by omega)
    have : slice.length = 0 := by
      rw [hslice, this]
      simp
    omega
  refine ⟨by omega, by omega, by omega, by omega, ?_, ?_⟩
  · exact hidx p 123 (by omega) hp123
  · have : start + pe + 1 - 1 = start + pe := by omega
    rw [this]
    exact hidx pe 125 (by omega) hpe125

set_option maxHeartbeats 1600000 in
/-- Projecting away the features component of the
`scan_records_and_features` loop yields exactly the `scan_records` loop:
the two top-level scan loops are equivalent. -/
lemma scanLoopRF_proj (content : List Nat) :
    ∀ (l : List Nat) (pos : Nat) (depth : Int) (recStart : Option Nat)
      (inString escapeNext : Bool) (acc : List (Nat × Nat × List (Nat × Nat))),
      (scanLoopRF content l pos depth recStart inString escapeNext acc).map
          (fun t => (t.1, t.2.1))
        = scanLoop l pos depth recStart inString escapeNext
            (acc.map (fun t => (t.1, t.2.1))) := by
  intro l
  induction l with
  | nil =>
    intro pos depth recStart inString escapeNext acc
    rw [scanLoopRF, scanLoop]
  | cons b rest ih =>
    intro pos depth recStart inString escapeNext acc
    cases recStart with
    | none =>
      simp only [scanLoopRF, scanLoop]
      split_ifs
      all_goals
        first
          | rfl
          | exact ih _ _ _ _ _ _
    | some s =>
      simp only [scanLoopRF, scanLoop]
      split_ifs
      case _ => exact ih _ _ _ _ _ _
      case _ => exact ih _ _ _ _ _ _
      case _ => exact ih _ _ _ _ _ _
      case _ => exact ih _ _ _ _ _ _
      case _ => exact ih _ _ _ _ _ _
      case _ => exact ih _ _ _ _ _ _
      case _ =>
        rw [ih]
        simp [List.map_append]
      case _ => exact ih _ _ _ _ _ _
      case _ => rfl
      case _ => exact ih _ _ _ _ _ _

/-- Invariant of the `scan_records_and_features` loop: every emitted
triple has a non-degenerate in-buffer record range delimited by braces,
and its features component is exactly `scan_features_in_range` applied
to that range. -/
lemma scanLoopRF_inv (content : List Nat) :
    ∀ (l : List Nat) (pos : Nat) (depth : Int) (recStart : Option Nat)
      (inString escapeNext : Bool) (acc : List (Nat × Nat × List (Nat × Nat))),
      content.drop pos = l →
      (∀ r, recStart = some r → content[r]? = some 123 ∧ r ≤ pos) →
      (∀ t ∈ acc, t.1 < t.2.1 ∧ t.2.1 ≤ content.length ∧
        content[t.1]? = some 123 ∧ content[t.2.1 - 1]? = some 125 ∧
        t.2.2 = scan_features_in_range content t.1 t.2.1) →
      ∀ t ∈ scanLoopRF content l pos depth recStart inString escapeNext acc,
        t.1 < t.2.1 ∧ t.2.1 ≤ content.length ∧
        content[t.1]? = some 123 ∧ content[t.2.1 - 1]? = some 125 ∧
        t.2.2 = scan_features_in_range content t.1 t.2.1 := by
  intro l
  induction l with
  | nil =>
    intro pos depth recStart inString escapeNext acc _ _ hacc t ht
    rw [scanLoopRF] at ht
    exact hacc t ht
  | cons b rest ih =>
    intro pos depth recStart inString escapeNext acc hdrop hrec hacc t ht
    obtain ⟨hb, hrest, hlen⟩ := drop_cons_split hdrop
    have hrec' : ∀ r, recStart = some r → content[r]? = some 123 ∧ r ≤ pos + 1 :=
      fun r hr => ⟨(hrec r hr).1, Nat.le_succ_of_le (hrec r hr).2⟩
    cases recStart with
    | none =>
      simp only [scanLoopRF] at ht
      split_ifs at ht
      all_goals
        first
          | exact hacc t ht
          | (have hures : ∀ r, (none : Option Nat) = some r →
                 content[r]? = some 123 ∧ r ≤ pos + 1 := by
               intro r hr
               simp at hr
             exact ih _ _ _ _ _ _ hrest hures hacc t ht)
          | (have hnew : ∀ r, some pos = some r → content[r]? = some 123 ∧ r ≤ pos + 1 := by
               intro r hr
               obtain rfl : pos = r := Option.some.inj hr
               exact ⟨by rw [hb]; exact congrArg some (by omega), by omega⟩
             exact ih _ _ _ _ _ _ hrest hnew hacc t ht)
    | some s =>
      simp only [scanLoopRF] at ht
      split_ifs at ht
      all_goals
        first
          | exact hacc t ht
          | exact ih _ _ _ _ _ _ hrest hrec' hacc t ht
          | (have hnew : ∀ r, some pos = some r → content[r]? = some 123 ∧ r ≤ pos + 1 := by
               intro r hr
               obtain rfl : pos = r := Option.some.inj hr
               exact ⟨by rw [hb]; exact congrArg some (by omega), by omega⟩
             exact ih _ _ _ _ _ _ hrest hnew hacc t ht)
          | (have hnew : ∀ r, (none : Option Nat) = some r →
                 content[r]? = some 123 ∧ r ≤ pos + 1 := by
               intro r hr
               simp at hr
             have hacc2 : ∀ p ∈ acc ++
                   [(s, pos + 1, scan_features_in_range content s (pos + 1))],
                 p.1 < p.2.1 ∧ p.2.1 ≤ content.length ∧
                 content[p.1]? = some 123 ∧ content[p.2.1 - 1]? = some 125 ∧
                 p.2.2 = scan_features_in_range content p.1 p.2.1 := by
               intro p hp
               rcases List.mem_append.mp hp with hp | hp
               · exact hacc p hp
               · obtain rfl : p = (s, pos + 1, scan_features_in_range content s (pos + 1)) := by
                   simpa using hp
                 obtain ⟨hs1, hs2⟩ := hrec s rfl
                 have hp125 : content[pos]? = some 125 := by
                   rw [hb]
                   exact congrArg some (by omega)
                 exact ⟨show s < pos + 1 by omega, show pos + 1 ≤ content.length by omega,
                   hs1, show content[pos + 1 - 1]? = some 125 by simpa using hp125, rfl⟩
             exact ih _ _ _ _ _ _ hrest hnew hacc2 t ht)

/-! ### Scanning serialized JSON: the grammar lemmas -/

/-- A valid string body and its closing quote are consumed inside the
string state with no structural effect: the scanner leaves the string
with all state components unchanged. -/
lemma strok_scan {s : List Nat} (h : StrOk s) :
    ∀ (rest : List Nat) (pos : Nat) (depth : Int) (recStart : Option Nat)
      (acc : List (Nat × Nat)),
      scanLoop (s ++ 34 :: rest) pos depth recStart true false acc
        = scanLoop rest (pos + s.length + 1) depth recStart false false acc := by
  induction h with
  | nil =>
    intro rest pos depth recStart acc
    simp [scanLoop]
  | plain b t hb1 hb2 ht ih =>
    intro rest pos depth recStart acc
    simp only [List.cons_append, scanLoop, hb1, hb2, if_false, Bool.false_eq_true,
      if_true, reduceIte, List.append_eq]
    rw [ih]
    have harith : pos + (b :: t).length + 1 = pos + 1 + t.length + 1 := by
      simp only [List.length_cons]
      omega
    rw [harith]
  | esc b t ht ih =>
    intro rest pos depth recStart acc
    simp only [List.cons_append, scanLoop, Bool.false_eq_true, reduceIte, List.append_eq]
    rw [ih]
    have harith : pos + (92 :: b :: t).length + 1 = pos + 1 + 1 + t.length + 1 := by
      simp only [List.length_cons]
      omega
    rw [harith]

/-- A balanced inner sequence is structurally transparent at brace depth
at least 1: the scanner walks through it leaving depth, pending record
start and accumulator unchanged. -/
lemma bal_scan {u : List Nat} (h : Bal u) :
    ∀ (rest : List Nat) (pos : Nat) (depth : Int) (recStart : Option Nat)
      (acc : List (Nat × Nat)), 1 ≤ depth →
      scanLoop (u ++ rest) pos depth recStart false false acc
        = scanLoop rest (pos + u.length) depth recStart false false acc := by
  induction h with
  | nil =>
    intro rest pos depth recStart acc _
    simp
  | plain b t hb1 hb2 hb3 hb4 ht ih =>
    intro rest pos depth recStart acc hd
    have hnobreak : ¬(b = 93 ∧ depth = 0) := by
      rintro ⟨_, h0⟩
      omega
    simp only [List.cons_append, scanLoop, hb1, hb2, hb3, hb4, hnobreak,
      Bool.false_eq_true, reduceIte, if_false, List.append_eq]
    rw [ih _ _ _ _ _ hd]
    have harith : pos + (b :: t).length = pos + 1 + t.length := by
      simp only [List.length_cons]
      omega
    rw [harith]
  | str s t hs ht ih =>
    intro rest pos depth recStart acc hd
    have hlist : (34 :: s ++ 34 :: t) ++ rest = 34 :: (s ++ 34 :: (t ++ rest)) := by
      simp
    rw [hlist]
    simp only [scanLoop, Bool.false_eq_true, reduceIte, Bool.not_false, List.append_eq]
    rw [strok_scan hs, ih _ _ _ _ _ hd]
    have harith : pos + (34 :: s ++ 34 :: t).length = pos + 1 + s.length + 1 + t.length := by
      simp only [List.length_cons, List.length_append]
      omega
    rw [harith]
    norm_num
  | obj u t hu ht ihu iht =>
    intro rest pos depth recStart acc hd
    have hlist : (123 :: u ++ 125 :: t) ++ rest = 123 :: (u ++ 125 :: (t ++ rest)) := by
      simp
    rw [hlist]
    have hdz : ¬depth = 0 := by omega
    simp only [scanLoop, Bool.false_eq_true, reduceIte, hdz, if_false, List.append_eq]
    rw [ihu _ _ _ _ _ (by omega : (1 : Int) ≤ depth + 1)]
    have h125 : ¬(depth + 1 - 1 = 0) := by omega
    simp only [scanLoop, Bool.false_eq_true, reduceIte, h125, if_false, List.append_eq]
    have hsub : depth + 1 - 1 = depth := by omega
    rw [hsub, iht _ _ _ _ _ hd]
    have harith : pos + (123 :: u ++ 125 :: t).length = pos + 1 + u.length + 1 + t.length := by
      simp only [List.length_cons, List.length_append]
      omega
    rw [harith]
    norm_num

/-- Scanning a complete object chunk at depth 0 emits exactly its range
and resets the pending start, leaving depth 0 for what follows. -/
lemma obj_scan {u : List Nat} (hu : Bal u) (rest : List Nat) (pos : Nat)
    (recStart : Option Nat) (acc : List (Nat × Nat)) :
    scanLoop ((123 :: u ++ [125]) ++ rest) pos 0 recStart false false acc
      = scanLoop rest (pos + u.length + 2) 0 none false false
          (acc ++ [(pos, pos + u.length + 2)]) := by
  have hlist : (123 :: u ++ [125]) ++ rest = 123 :: (u ++ 125 :: rest) := by
    simp
  rw [hlist]
  simp only [scanLoop, Bool.false_eq_true, reduceIte, List.append_eq]
  rw [bal_scan hu _ _ _ _ _ (by omega : (1 : Int) ≤ 0 + 1)]
  simp only [scanLoop, Bool.false_eq_true, reduceIte, List.append_eq]
  have harith : pos + 1 + u.length + 1 = pos + u.length + 2 := by omega
  rw [harith]
  norm_num

/-- Scanning a comma-joined sequence of object chunks from depth 0
emits exactly one range per object, at the expected offsets, and then
continues with the remaining input. -/
lemma body_scan (objs : List (List Nat)) :
    ∀ (tail : List Nat) (pos : Nat) (acc : List (Nat × Nat)),
      (∀ o ∈ objs, IsObj o) →
      scanLoop (joinComma objs ++ tail) pos 0 none false false acc
        = scanLoop tail (pos + (joinComma objs).length) 0 none false false
            (acc ++ rangesFrom pos objs) := by
  induction objs with
  | nil =>
    intro tail pos acc _
    simp [joinComma, rangesFrom]
  | cons o rest ih =>
    intro tail pos acc hobj
    obtain ⟨u, hu, ho⟩ := hobj o (by simp)
    cases rest with
    | nil =>
      have hjoin : joinComma [o] = o := rfl
      rw [hjoin, ho, obj_scan hu]
      have hlen : (123 :: u ++ [125]).length = u.length + 2 := by
        simp
      have hr : rangesFrom pos [123 :: u ++ [125]] = [(pos, pos + (u.length + 2))] := by
        simp [rangesFrom, hlen]
      rw [hr, hlen]
      have h1 : pos + (u.length + 2) = pos + u.length + 2 := by omega
      rw [h1]
    | cons o2 rest2 =>
      have hjoin : joinComma (o :: o2 :: rest2) = o ++ 44 :: joinComma (o2 :: rest2) := rfl
      rw [hjoin, ho]
      have hlist : (123 :: u ++ [125] ++ 44 :: joinComma (o2 :: rest2)) ++ tail
          = (123 :: u ++ [125]) ++ (44 :: (joinComma (o2 :: rest2) ++ tail)) := by
        simp
      rw [hlist, obj_scan hu]
      have hcomma : scanLoop (44 :: (joinComma (o2 :: rest2) ++ tail))
            (pos + u.length + 2) 0 none false false
            (acc ++ [(pos, pos + u.length + 2)])
          = scanLoop (joinComma (o2 :: rest2) ++ tail) (pos + u.length + 2 + 1) 0 none
              false false (acc ++ [(pos, pos + u.length + 2)]) := by
        simp only [scanLoop]
        norm_num
      rw [hcomma, ih tail (pos + u.length + 2 + 1) _ (fun x hx => hobj x (by simp [hx]))]
      have hr2 : rangesFrom pos ((123 :: u ++ [125]) :: o2 :: rest2)
          = (pos, pos + (u.length + 2)) :: rangesFrom (pos + (u.length + 2) + 1) (o2 :: rest2) := by
        simp only [rangesFrom, List.length_cons, List.length_append, List.length_singleton]
        norm_num
      rw [hr2]
      have hlen2 : (123 :: u ++ [125] ++ 44 :: joinComma (o2 :: rest2)).length
          = u.length + 3 + (joinComma (o2 :: rest2)).length := by
        simp
        omega
      rw [hlen2]
      have harg1 : pos + u.length + 2 + 1 + (joinComma (o2 :: rest2)).length
          = pos + (u.length + 3 + (joinComma (o2 :: rest2)).length) := by omega
      have harg2 : pos + (u.length + 2) + 1 = pos + u.length + 2 + 1 := by omega
      have harg3 : pos + (u.length + 2) = pos + u.length + 2 := by omega
      rw [harg1, harg2, harg3, List.append_assoc]
      simp

/-- On any document starting with the canonical head, the anchor search
finds the `"records"` pattern at offset 1. -/
lemma findPattern_docHead (rest : List Nat) :
    findPattern (docHead ++ rest) recordsPattern = some 1 := by
  simp [docHead, recordsPattern, findPattern]

/-- On any document starting with the canonical head, the bracket search
from the pattern offset finds the `[` at relative offset 10. -/
lemma findByte_docHead (rest : List Nat) :
    findByte ((docHead ++ rest).drop 1) 91 = some 10 := by
  simp [docHead, findByte]

/-- `scan_records` on a canonical document returns exactly the ranges of
the serialized objects. -/
lemma scan_records_docOf (objs : List (List Nat)) (suffix : List Nat)
    (h : ∀ o ∈ objs, IsObj o) :
    scan_records (some (docOf objs suffix)) = .ok (rangesFrom 12 objs) := by
  rw [scan_records, scan_records_buf, docOf]
  rw [List.append_assoc]
  simp only [findPattern_docHead, findByte_docHead]
  have hdrop : (docHead ++ (joinComma objs ++ 93 :: suffix)).drop (1 + 10 + 1)
      = joinComma objs ++ 93 :: suffix := by
    have h12 : (1 : Nat) + 10 + 1 = docHead.length := by
      simp [docHead]
    rw [h12, List.drop_left]
  rw [hdrop]
  rw [body_scan objs (93 :: suffix) (1 + 10 + 1) [] h]
  have hbreak : scanLoop (93 :: suffix) (1 + 10 + 1 + (joinComma objs).length) 0 none
      false false ([] ++ rangesFrom (1 + 10 + 1) objs) = rangesFrom 12 objs := by
    simp only [scanLoop]
    norm_num
  rw [hbreak]

/-- Exhaustion policy: on a canonical document that is truncated before
the closing `]`, the scan ends at end of buffer with the ranges
completed so far, not an error. -/
lemma scan_records_truncated (objs : List (List Nat))
    (h : ∀ o ∈ objs, IsObj o) :
    scan_records (some (docHead ++ joinComma objs)) = .ok (rangesFrom 12 objs) := by
  rw [scan_records, scan_records_buf]
  simp only [findPattern_docHead, findByte_docHead]
  have hdrop : (docHead ++ joinComma objs).drop (1 + 10 + 1) = joinComma objs := by
    have h12 : (1 : Nat) + 10 + 1 = docHead.length := by
      simp [docHead]
    rw [h12, List.drop_left]
  rw [hdrop]
  have hnil : joinComma objs = joinComma objs ++ [] := by
    simp
  rw [hnil, body_scan objs [] (1 + 10 + 1) [] h]
  rw [scanLoop]
  norm_num

/-- An object chunk has at least its two braces. -/
lemma IsObj_two_le {o : List Nat} (h : IsObj o) : 2 ≤ o.length := by
  obtain ⟨u, _, rfl⟩ := h
  simp

/-- One range per object. -/
lemma rangesFrom_length (objs : List (List Nat)) :
    ∀ pos, (rangesFrom pos objs).length = objs.length := by
  induction objs with
  | nil => intro pos; rfl
  | cons o rest ih =>
    intro pos
    rw [rangesFrom]
    simp [ih]

/-- Every expected range starts at or after the scan position and spans
at least the two braces of its object. -/
lemma rangesFrom_bounds (objs : List (List Nat)) (h : ∀ o ∈ objs, 2 ≤ o.length) :
    ∀ pos, ∀ q ∈ rangesFrom pos objs, pos ≤ q.1 ∧ q.1 + 2 ≤ q.2 := by
  induction objs with
  | nil =>
    intro pos q hq
    rw [rangesFrom] at hq
    simp at hq
  | cons o rest ih =>
    intro pos q hq
    rw [rangesFrom] at hq
    rcases List.mem_cons.mp hq with hq | hq
    · subst hq
      have h2 := h o (by simp)
      exact ⟨le_refl _, by omega⟩
    · have h3 := ih (fun x hx => h x (by simp [hx])) (pos + o.length + 1) q hq
      have h2 := h o (by simp)
      omega

/-- The expected ranges are strictly increasing by start and pairwise
non-overlapping. -/
lemma rangesFrom_pairwise (objs : List (List Nat)) (h : ∀ o ∈ objs, 2 ≤ o.length) :
    ∀ pos, List.Pairwise (fun a b => a.1 < b.1 ∧ a.2 ≤ b.1) (rangesFrom pos objs) := by
  induction objs with
  | nil =>
    intro pos
    rw [rangesFrom]
    exact List.Pairwise.nil
  | cons o rest ih =>
    intro pos
    rw [rangesFrom]
    refine List.Pairwise.cons ?_ (ih (fun x hx => h x (by simp [hx])) (pos + o.length + 1))
    intro b hb
    have hbb := rangesFrom_bounds rest (fun x hx => h x (by simp [hx]))
      (pos + o.length + 1) b hb
    have h2 := h o (by simp)
    exact ⟨show pos < b.1 by omega, show pos + o.length ≤ b.1 by omega⟩

/-! ### Fuel-indexed versions of the scan loops

These model the Rust `while pos < content.len()` loops directly: the
cursor is an index, every byte access `content[pos]` is performed
through `content[pos]?` under the loop guard `pos < content.length`, and
an explicit fuel counter decreases at every iteration.  `none` means the
fuel ran out before the loop finished or an out-of-bounds access
happened; the equivalence lemmas show fuel `content.length - pos`
suffices and the scan never returns `none` — i.e. the loops terminate
within one iteration per remaining byte and never touch a byte outside
the buffer (respectively outside the record slice). -/

/-- Fuel-indexed form of the `scan_records` loop. -/
def scanIdx (content : List Nat) : Nat → Nat → Int → Option Nat → Bool → Bool →
    List (Nat × Nat) → Option (List (Nat × Nat))
  | 0, pos, _, _, _, _, acc =>
    if pos < content.length then none else some acc
  | fuel + 1, pos, depth, recStart, inString, escapeNext, acc =>
    if pos < content.length then
      match content[pos]? with
      | none => none
      | some b =>
        if escapeNext then
          scanIdx content fuel (pos + 1) depth recStart inString false acc
        else if b = 92 then
          scanIdx content fuel (pos + 1) depth recStart inString true acc
        else if b = 34 then
          scanIdx content fuel (pos + 1) depth recStart (!inString) escapeNext acc
        else if inString then
          scanIdx content fuel (pos + 1) depth recStart inString escapeNext acc
        else if b = 123 then
          scanIdx content fuel (pos + 1) (depth + 1)
            (if depth = 0 then some pos else recStart) inString escapeNext acc
        else if b = 125 then
          if depth - 1 = 0 then
            match recStart with
            | some s =>
              scanIdx content fuel (pos + 1) (depth - 1) none inString escapeNext
                (acc ++ [(s, pos + 1)])
            | none =>
              scanIdx content fuel (pos + 1) (depth - 1) recStart inString escapeNext acc
          else
            scanIdx content fuel (pos + 1) (depth - 1) recStart inString escapeNext acc
        else if b = 93 ∧ depth = 0 then
          some acc
        else
          scanIdx content fuel (pos + 1) depth recStart inString escapeNext acc
    else some acc

set_option maxHeartbeats 3000000 in
/-- Fuel `content.length - pos` suffices for the indexed loop, which then
computes exactly the suffix-recursion result: the `scan_records` loop
terminates after at most one iteration per remaining byte, with every
byte access in bounds. -/
lemma scanIdx_eq (content : List Nat) :
    ∀ (fuel : Nat), ∀ (pos : Nat) (depth : Int) (recStart : Option Nat)
      (inString escapeNext : Bool) (acc : List (Nat × Nat)),
      content.length ≤ pos + fuel →
      scanIdx content fuel pos depth recStart inString escapeNext acc
        = some (scanLoop (content.drop pos) pos depth recStart inString escapeNext acc) := by
  intro fuel
  induction fuel with
  | zero =>
    intro pos depth recStart inString escapeNext acc hle
    have hnp : ¬pos < content.length := by omega
    rw [scanIdx, if_neg hnp, List.drop_eq_nil_of_le (by omega), scanLoop]
  | succ fuel ih =>
    intro pos depth recStart inString escapeNext acc hle
    by_cases hp : pos < content.length
    · rcases hb2 : content[pos]? with _ | b
      · rw [List.getElem?_eq_none_iff] at hb2
        omega
      · have hbv : content[pos] = b := by
          have hg := List.getElem?_eq_getElem hp
          rw [hb2] at hg
          exact (Option.some.inj hg).symm
        have hdrop : content.drop pos = b :: content.drop (pos + 1) := by
          rw [List.drop_eq_getElem_cons hp, hbv]
        simp only [scanIdx, hb2, if_pos hp]
        rw [hdrop]
        simp only [scanLoop]
        cases recStart with
        | none =>
          split_ifs
          case _ => exact ih _ _ _ _ _ _ (by omega)
          case _ => exact ih _ _ _ _ _ _ (by omega)
          case _ => exact ih _ _ _ _ _ _ (by omega)
          case _ => exact ih _ _ _ _ _ _ (by omega)
          case _ => exact ih _ _ _ _ _ _ (by omega)
          case _ => exact ih _ _ _ _ _ _ (by omega)
          case _ => exact ih _ _ _ _ _ _ (by omega)
          case _ => exact ih _ _ _ _ _ _ (by omega)
          case _ => rfl
          case _ => exact ih _ _ _ _ _ _ (by omega)
        | some s =>
          split_ifs
          case _ => exact ih _ _ _ _ _ _ (by omega)
          case _ => exact ih _ _ _ _ _ _ (by omega)
          case _ => exact ih _ _ _ _ _ _ (by omega)
          case _ => exact ih _ _ _ _ _ _ (by omega)
          case _ => exact ih _ _ _ _ _ _ (by omega)
          case _ => exact ih _ _ _ _ _ _ (by omega)
          case _ => exact ih _ _ _ _ _ _ (by omega)
          case _ => exact ih _ _ _ _ _ _ (by omega)
          case _ => rfl
          case _ => exact ih _ _ _ _ _ _ (by omega)
    · simp only [scanIdx]
      rw [if_neg hp, List.drop_eq_nil_of_le (by omega), scanLoop]

/-- Fuel-indexed form of the feature loop, cursor-indexed over the
record slice. -/
def featIdx (slice : List Nat) : Nat → Nat → Nat → Int → Option Nat → Bool → Bool →
    List (Nat × Nat) → Option (List (Nat × Nat))
  | 0, pos, _, _, _, _, _, acc =>
    if pos < slice.length then none else some acc
  | fuel + 1, pos, start, depth, featStart, inString, escapeNext, acc =>
    if pos < slice.length then
      match slice[pos]? with
      | none => none
      | some b =>
        if escapeNext then
          featIdx slice fuel (pos + 1) start depth featStart inString false acc
        else if b = 92 then
          featIdx slice fuel (pos + 1) start depth featStart inString true acc
        else if b = 34 then
          featIdx slice fuel (pos + 1) start depth featStart (!inString) escapeNext acc
        else if inString then
          featIdx slice fuel (pos + 1) start depth featStart inString escapeNext acc
        else if b = 123 then
          featIdx slice fuel (pos + 1) start (depth + 1)
            (if depth = 0 then some pos else featStart) inString escapeNext acc
        else if b = 125 then
          if depth - 1 = 0 then
            match featStart with
            | some fs =>
              featIdx slice fuel (pos + 1) start (depth - 1) none inString escapeNext
                (acc ++ [(start + fs, start + pos + 1)])
            | none =>
              featIdx slice fuel (pos + 1) start (depth - 1) featStart inString escapeNext acc
          else
            featIdx slice fuel (pos + 1) start (depth - 1) featStart inString escapeNext acc
        else if b = 93 ∧ depth = 0 then
          some acc
        else
          featIdx slice fuel (pos + 1) start depth featStart inString escapeNext acc
    else some acc

set_option maxHeartbeats 3000000 in
/-- Fuel `slice.length - pos` suffices for the indexed feature loop:
the nested scan terminates within one iteration per remaining slice
byte and never reads outside the record slice. -/
lemma featIdx_eq (slice : List Nat) :
    ∀ (fuel : Nat), ∀ (pos start : Nat) (depth : Int) (featStart : Option Nat)
      (inString escapeNext : Bool) (acc : List (Nat × Nat)),
      slice.length ≤ pos + fuel →
      featIdx slice fuel pos start depth featStart inString escapeNext acc
        = some (featLoop (slice.drop pos) pos start depth featStart inString escapeNext acc) := by
  intro fuel
  induction fuel with
  | zero =>
    intro pos start depth featStart inString escapeNext acc hle
    have hnp : ¬pos < slice.length := by omega
    rw [featIdx, if_neg hnp, List.drop_eq_nil_of_le (by omega), featLoop]
  | succ fuel ih =>
    intro pos start depth featStart inString escapeNext acc hle
    by_cases hp : pos < slice.length
    · rcases hb2 : slice[pos]? with _ | b
      · rw [List.getElem?_eq_none_iff] at hb2
        omega
      · have hbv : slice[pos] = b := by
          have hg := List.getElem?_eq_getElem hp
          rw [hb2] at hg
          exact (Option.some.inj hg).symm
        have hdrop : slice.drop pos = b :: slice.drop (pos + 1) := by
          rw [List.drop_eq_getElem_cons hp, hbv]
        simp only [featIdx, hb2, if_pos hp]
        rw [hdrop]
        simp only [featLoop]
        cases featStart with
        | none =>
          split_ifs
          case _ => exact ih _ _ _ _ _ _ _ (by omega)
          case _ => exact ih _ _ _ _ _ _ _ (by omega)
          case _ => exact ih _ _ _ _ _ _ _ (by omega)
          case _ => exact ih _ _ _ _ _ _ _ (by omega)
          case _ => exact ih _ _ _ _ _ _ _ (by omega)
          case _ => exact ih _ _ _ _ _ _ _ (by omega)
          case _ => exact ih _ _ _ _ _ _ _ (by omega)
          case _ => exact ih _ _ _ _ _ _ _ (by omega)
          case _ => rfl
          case _ => exact ih _ _ _ _ _ _ _ (by omega)
        | some s =>
          split_ifs
          case _ => exact ih _ _ _ _ _ _ _ (by omega)
          case _ => exact ih _ _ _ _ _ _ _ (by omega)
          case _ => exact ih _ _ _ _ _ _ _ (by omega)
          case _ => exact ih _ _ _ _ _ _ _ (by omega)
          case _ => exact ih _ _ _ _ _ _ _ (by omega)
          case _ => exact ih _ _ _ _ _ _ _ (by omega)
          case _ => exact ih _ _ _ _ _ _ _ (by omega)
          case _ => exact ih _ _ _ _ _ _ _ (by omega)
          case _ => rfl
          case _ => exact ih _ _ _ _ _ _ _ (by omega)
    · simp only [featIdx]
      rw [if_neg hp, List.drop_eq_nil_of_le (by omega), featLoop]

/-- Fuel-indexed form of the `scan_records_and_features` loop. -/
def rfIdx (content : List Nat) : Nat → Nat → Int → Option Nat → Bool → Bool →
    List (Nat × Nat × List (Nat × Nat)) → Option (List (Nat × Nat × List (Nat × Nat)))
  | 0, pos, _, _, _, _, acc =>
    if pos < content.length then none else some acc
  | fuel + 1, pos, depth, recStart, inString, escapeNext, acc =>
    if pos < content.length then
      match content[pos]? with
      | none => none
      | some b =>
        if escapeNext then
          rfIdx content fuel (pos + 1) depth recStart inString false acc
        else if b = 92 then
          rfIdx content fuel (pos + 1) depth recStart inString true acc
        else if b = 34 then
          rfIdx content fuel (pos + 1) depth recStart (!inString) escapeNext acc
        else if inString then
          rfIdx content fuel (pos + 1) depth recStart inString escapeNext acc
        else if b = 123 then
          rfIdx content fuel (pos + 1) (depth + 1)
            (if depth = 0 then some pos else recStart) inString escapeNext acc
        else if b = 125 then
          if depth - 1 = 0 then
            match recStart with
            | some s =>
              rfIdx content fuel (pos + 1) (depth - 1) none inString escapeNext
                (acc ++ [(s, pos + 1, scan_features_in_range content s (pos + 1))])
            | none =>
              rfIdx content fuel (pos + 1) (depth - 1) recStart inString escapeNext acc
          else
            rfIdx content fuel (pos + 1) (depth - 1) recStart inString escapeNext acc
        else if b = 93 ∧ depth = 0 then
          some acc
        else
          rfIdx content fuel (pos + 1) depth recStart inString escapeNext acc
    else some acc

set_option maxHeartbeats 3000000 in
/-- Fuel `content.length - pos` suffices for the indexed
`scan_records_and_features` loop: it terminates within one iteration per
remaining byte with every byte access in bounds. -/
lemma rfIdx_eq (content : List Nat) :
    ∀ (fuel : Nat), ∀ (pos : Nat) (depth : Int) (recStart : Option Nat)
      (inString escapeNext : Bool) (acc : List (Nat × Nat × List (Nat × Nat))),
      content.length ≤ pos + fuel →
      rfIdx content fuel pos depth recStart inString escapeNext acc
        = some (scanLoopRF content (content.drop pos) pos depth recStart inString escapeNext acc) := by
  intro fuel
  induction fuel with
  | zero =>
    intro pos depth recStart inString escapeNext acc hle
    have hnp : ¬pos < content.length := by omega
    rw [rfIdx, if_neg hnp, List.drop_eq_nil_of_le (by omega), scanLoopRF]
  | succ fuel ih =>
    intro pos depth recStart inString escapeNext acc hle
    by_cases hp : pos < content.length
    · rcases hb2 : content[pos]? with _ | b
      · rw [List.getElem?_eq_none_iff] at hb2
        omega
      · have hbv : content[pos] = b := by
          have hg := List.getElem?_eq_getElem hp
          rw [hb2] at hg
          exact (Option.some.inj hg).symm
        have hdrop : content.drop pos = b :: content.drop (pos + 1) := by
          rw [List.drop_eq_getElem_cons hp, hbv]
        simp only [rfIdx, hb2, if_pos hp]
        rw [hdrop]
        simp only [scanLoopRF]
        cases recStart with
        | none =>
          split_ifs
          case _ => exact ih _ _ _ _ _ _ (by omega)
          case _ => exact ih _ _ _ _ _ _ (by omega)
          case _ => exact ih _ _ _ _ _ _ (by omega)
          case _ => exact ih _ _ _ _ _ _ (by omega)
          case _ => exact ih _ _ _ _ _ _ (by omega)
          case _ => exact ih _ _ _ _ _ _ (by omega)
          case _ => exact ih _ _ _ _ _ _ (by omega)
          case _ => exact ih _ _ _ _ _ _ (by omega)
          case _ => rfl
          case _ => exact ih _ _ _ _ _ _ (by omega)
        | some s =>
          split_ifs
          case _ => exact ih _ _ _ _ _ _ (by omega)
          case _ => exact ih _ _ _ _ _ _ (by omega)
          case _ => exact ih _ _ _ _ _ _ (by omega)
          case _ => exact ih _ _ _ _ _ _ (by omega)
          case _ => exact ih _ _ _ _ _ _ (by omega)
          case _ => exact ih _ _ _ _ _ _ (by omega)
          case _ => exact ih _ _ _ _ _ _ (by omega)
          case _ => exact ih _ _ _ _ _ _ (by omega)
          case _ => rfl
          case _ => exact ih _ _ _ _ _ _ (by omega)
    · simp only [rfIdx]
      rw [if_neg hp, List.drop_eq_nil_of_le (by omega), scanLoopRF]

/-! ### Elimination helpers for the public operations -/

/-- A successful `scan_records` result is the record loop started just
after the bracket that follows the anchor. -/
lemma scan_records_ok_elim {content : List Nat} {rs : List (Nat × Nat)}
    (h : scan_records (some content) = .ok rs) :
    ∃ startPos, rs = scanLoop (content.drop startPos) startPos 0 none false false [] := by
  rw [scan_records, scan_records_buf] at h
  rcases h1 : findPattern content recordsPattern with _ | recordsPos
  · simp only [h1] at h
    exact absurd h (by simp)
  · simp only [h1] at h
    rcases h2 : findByte (content.drop recordsPos) 91 with _ | arrayStart
    · simp only [h2] at h
      exact absurd h (by simp)
    · simp only [h2, Except.ok.injEq] at h
      exact ⟨recordsPos + arrayStart + 1, h.symm⟩

/-- A successful `scan_records_and_features` result is the record/feature
loop started just after the bracket that follows the anchor. -/
lemma rf_ok_elim {content : List Nat} {res : List (Nat × Nat × List (Nat × Nat))}
    (h : scan_records_and_features (some content) = .ok res) :
    ∃ startPos,
      res = scanLoopRF content (content.drop startPos) startPos 0 none false false [] := by
  rw [scan_records_and_features] at h
  rcases h1 : findPattern content recordsPattern with _ | recordsPos
  · simp only [h1] at h
    exact absurd h (by simp)
  · simp only [h1] at h
    rcases h2 : findByte (content.drop recordsPos) 91 with _ | arrayStart
    · simp only [h2] at h
      exact absurd h (by simp)
    · simp only [h2, Except.ok.injEq] at h
      exact ⟨recordsPos + arrayStart + 1, h.symm⟩

/-- Every triple of a successful `scan_records_and_features` run
satisfies the loop invariant. -/
lemma rf_ok_inv {content : List Nat} {res : List (Nat × Nat × List (Nat × Nat))}
    (h : scan_records_and_features (some content) = .ok res) :
    ∀ t ∈ res, t.1 < t.2.1 ∧ t.2.1 ≤ content.length ∧
      content[t.1]? = some 123 ∧ content[t.2.1 - 1]? = some 125 ∧
      t.2.2 = scan_features_in_range content t.1 t.2.1 := by
  obtain ⟨startPos, rfl⟩ := rf_ok_elim h
  exact scanLoopRF_inv content _ _ _ _ _ _ _ rfl
    (by intro r hr; simp at hr) (by intro t ht; simp at ht)

/-- Absent `"features"` pattern: the nested scan returns the empty list. -/
lemma scan_features_none {content : List Nat} {start e : Nat}
    (h : findPattern ((content.drop start).take (e - start)) featuresPattern = none) :
    scan_features_in_range content start e = [] := by
  rw [scan_features_in_range]
  simp only [h]

/-- Pattern found but no bracket after it inside the slice: the nested
scan returns the empty list. -/
lemma scan_features_nobracket {content : List Nat} {start e fpos : Nat}
    (h1 : findPattern ((content.drop start).take (e - start)) featuresPattern = some fpos)
    (h2 : findByte (((content.drop start).take (e - start)).drop fpos) 91 = none) :
    scan_features_in_range content start e = [] := by
  rw [scan_features_in_range]
  simp only [h1, h2]

/-! ### The claims -/

/-- C1: on the buffer `\x7b"records":[\x7b"features":[\x7b"x":1\x7d]\x7d]\x7d`,
`scan_records_and_features` returns exactly one record whose byte range
(12, 34) covers the whole object `\x7b"features":[\x7b"x":1\x7d]\x7d`,
carrying exactly one feature range (25, 32) whose slice of the buffer is
exactly `\x7b"x":1\x7d`, both as absolute offsets. -/
theorem claim1 :
    scan_records_and_features (some buf1) = .ok [(12, 34, [(25, 32)])]
    ∧ buf1 = docHead ++ obj1 ++ [93, 125]
    ∧ (buf1.drop 12).take (34 - 12) = obj1
    ∧ (buf1.drop 25).take (32 - 25) = featObj1 :=
  ⟨by rfl, by rfl, by rfl, by rfl⟩

/-- C2 counterexample: the well-formed JSON document
`\x7b"a":\x7b"records":[5]\x7d,"records":[\x7b"x":1\x7d]\x7d`, whose
top-level `"records"` array holds exactly one object, makes
`scan_records` return zero ranges (the textual anchor search matches the
decoy key first and the scan starts inside `[5]`), refuting the claim
quantified over all well-formed documents. -/
theorem claim2_counterexample :
    decoyBuf = decoyHead ++ featObj1 ++ [93, 125]
    ∧ IsObj featObj1
    ∧ scan_records (some decoyBuf) = .ok []
    ∧ ([] : List (Nat × Nat)).length = 0 :=
  ⟨rfl, featObj1_isObj, by rfl, rfl⟩

/-- C2 (amended to documents whose anchor is textually unambiguous, in
canonical form `\x7b"records":[o1,...,oN]...`): `scan_records` returns
exactly N ranges, strictly increasing by start, pairwise non-overlapping,
each with start < end. -/
theorem claim2 (objs : List (List Nat)) (suffix : List Nat)
    (h : ∀ o ∈ objs, IsObj o) :
    scan_records (some (docOf objs suffix)) = .ok (rangesFrom 12 objs)
    ∧ (rangesFrom 12 objs).length = objs.length
    ∧ List.Pairwise (fun a b => a.1 < b.1 ∧ a.2 ≤ b.1) (rangesFrom 12 objs)
    ∧ ∀ q ∈ rangesFrom 12 objs, q.1 < q.2 := by
  have h2 : ∀ o ∈ objs, 2 ≤ o.length := fun o ho => IsObj_two_le (h o ho)
  refine ⟨scan_records_docOf objs suffix h, rangesFrom_length objs 12,
    rangesFrom_pairwise objs h2 12, ?_⟩
  intro q hq
  have := rangesFrom_bounds objs h2 12 q hq
  omega

/-- C2 witness: the amended claim at the concrete one-object document
`\x7b"records":[\x7b"x":1\x7d]\x7d`. -/
theorem claim2_witness :
    scan_records (some (docOf [featObj1] [])) = .ok (rangesFrom 12 [featObj1])
    ∧ rangesFrom 12 [featObj1] = [(12, 19)] :=
  ⟨(claim2 [featObj1] [] (by
      intro o ho
      rw [List.mem_singleton] at ho
      rw [ho]
      exact featObj1_isObj)).1, by rfl⟩

set_option maxRecDepth 16384 in
/-- C3 counterexample: the document
`\x7b"records":[\x7b"note":"features","arr":[\x7b"y":2\x7d]\x7d]\x7d`
has a single record whose keys are only `note` and `arr` — it contains
no `features` key — yet `scan_records_and_features` emits the non-empty
feature sequence [(38, 45)] for it, because the string value
`"features"` textually matches the anchor pattern and the `[` of the
`arr` value follows it inside the record slice.  The emitted "feature"
is the `\x7b"y":2\x7d` element of the `arr` array. -/
theorem claim3_counterexample :
    bufC3 = docHead ++ objC3 ++ [93, 125]
    ∧ scan_records_and_features (some bufC3) = .ok [(12, 47, [(38, 45)])]
    ∧ (bufC3.drop 12).take (47 - 12) = objC3
    ∧ (bufC3.drop 38).take (45 - 38) = [123, 34, 121, 34, 58, 50, 125]
    ∧ [(38, 45)] ≠ ([] : List (Nat × Nat)) :=
  ⟨rfl, by rfl, by rfl, by rfl, by simp⟩

/-- C3 (amended): every feature range emitted by
`scan_records_and_features` is contained in its parent record's range
(unchanged), and a record whose byte slice does not contain the textual
pattern `"features"` gets the empty feature sequence.  (A record with no
`features` key can still get a non-empty sequence when the pattern
occurs inside a string value — the textual-anchor limitation shown by
the counterexample.) -/
theorem claim3 (content : List Nat) (res : List (Nat × Nat × List (Nat × Nat)))
    (hres : scan_records_and_features (some content) = .ok res) :
    (∀ t ∈ res, ∀ q ∈ t.2.2, t.1 ≤ q.1 ∧ q.2 ≤ t.2.1)
    ∧ (∀ t ∈ res,
        findPattern ((content.drop t.1).take (t.2.1 - t.1)) featuresPattern = none →
        t.2.2 = []) := by
  constructor
  · intro t ht q hq
    have h := rf_ok_inv hres t ht
    rw [h.2.2.2.2] at hq
    have h2 := scan_features_in_range_inv content t.1 t.2.1 q hq
    exact ⟨h2.1, h2.2.2.1⟩
  · intro t ht hnone
    have h := rf_ok_inv hres t ht
    rw [h.2.2.2.2]
    exact scan_features_none hnone

/-- C3 witness: the containment at the concrete scenario-2 buffer. -/
theorem claim3_witness : (12 : Nat) ≤ 25 ∧ (32 : Nat) ≤ 34 := by
  have h := (claim3 buf1 [(12, 34, [(25, 32)])] (by rfl)).1
    (12, 34, [(25, 32)]) (by simp) (25, 32) (by simp)
  exact h

/-- C4: every range returned by `scan_records`, and every record and
feature range returned by `scan_records_and_features`, starts on an
opening brace and ends one past a closing brace. -/
theorem claim4 (content : List Nat) :
    (∀ rs, scan_records (some content) = .ok rs →
      ∀ q ∈ rs, content[q.1]? = some 123 ∧ content[q.2 - 1]? = some 125)
    ∧ (∀ res, scan_records_and_features (some content) = .ok res →
        ∀ t ∈ res,
          (content[t.1]? = some 123 ∧ content[t.2.1 - 1]? = some 125)
          ∧ ∀ q ∈ t.2.2, content[q.1]? = some 123 ∧ content[q.2 - 1]? = some 125) := by
  constructor
  · intro rs hrs q hq
    obtain ⟨sp, rfl⟩ := scan_records_ok_elim hrs
    have h := scanLoop_inv content _ _ _ _ _ _ _ rfl (by intro r hr; simp at hr)
      (by intro p hp; simp at hp) q hq
    exact ⟨h.1, h.2.1⟩
  · intro res hres t ht
    have h := rf_ok_inv hres t ht
    refine ⟨⟨h.2.2.1, h.2.2.2.1⟩, ?_⟩
    intro q hq
    rw [h.2.2.2.2] at hq
    have h2 := scan_features_in_range_inv content t.1 t.2.1 q hq
    exact ⟨h2.2.2.2.2.1, h2.2.2.2.2.2⟩

/-- C4 witness: brace delimitation of the record range on the concrete
scenario-2 buffer. -/
theorem claim4_witness : buf1[12]? = some 123 ∧ buf1[33]? = some 125 := by
  have h := (claim4 buf1).1 [(12, 34)] (by rfl) (12, 34) (by simp)
  simpa using h

/-- C5: braces, brackets and escaped quotes inside string values do not
perturb the depth counting: the spec's example record and an
escaped-quote variant are each scanned as a single object of exactly the
right extent. -/
theorem claim5 :
    scan_records (some buf5) = .ok [(12, 46)]
    ∧ buf5 = docHead ++ obj5 ++ [93, 125]
    ∧ (buf5.drop 12).take (46 - 12) = obj5
    ∧ scan_records (some buf5b) = .ok [(12, 34)]
    ∧ buf5b = docHead ++ obj5b ++ [93, 125]
    ∧ (buf5b.drop 12).take (34 - 12) = obj5b :=
  ⟨by rfl, by rfl, by rfl, by rfl, by rfl, by rfl⟩

/-- C6: `scan_records` raises IOError exactly when the file read fails,
FormatError exactly when the `"records"` pattern is absent or no `[`
occurs at or after it, and an error excludes any returned ranges. -/
theorem claim6 (file : Option (List Nat)) :
    (scan_records file = .error .ioError ↔ file = none)
    ∧ (scan_records file = .error .formatError ↔
        ∃ content, file = some content ∧
          (findPattern content recordsPattern = none ∨
            ∃ i, findPattern content recordsPattern = some i ∧
              findByte (content.drop i) 91 = none))
    ∧ ∀ e rs, scan_records file = .error e → scan_records file ≠ .ok rs := by
  refine ⟨?_, ?_, ?_⟩
  · cases file with
    | none => simp [scan_records]
    | some content =>
      simp only [scan_records]
      constructor
      · intro h
        exfalso
        rw [scan_records_buf] at h
        rcases h1 : findPattern content recordsPattern with _ | p
        · simp only [h1] at h
          exact absurd h (by simp)
        · simp only [h1] at h
          rcases h2 : findByte (content.drop p) 91 with _ | a
          · simp only [h2] at h
            exact absurd h (by simp)
          · simp only [h2] at h
            exact absurd h (by simp)
      · intro h
        exact Option.noConfusion h
  · cases file with
    | none =>
      simp [scan_records]
    | some content =>
      simp only [scan_records, Option.some.injEq]
      constructor
      · intro h
        rw [scan_records_buf] at h
        rcases h1 : findPattern content recordsPattern with _ | p
        · exact ⟨content, rfl, Or.inl h1⟩
        · simp only [h1] at h
          rcases h2 : findByte (content.drop p) 91 with _ | a
          · exact ⟨content, rfl, Or.inr ⟨p, h1, h2⟩⟩
          · simp only [h2] at h
            exact absurd h (by simp)
      · rintro ⟨c, rfl, hdis⟩
        rw [scan_records_buf]
        rcases hdis with h1 | ⟨i, h1, h2⟩
        · simp only [h1]
        · simp only [h1, h2]
  · intro e rs he hok
    rw [he] at hok
    exact absurd hok (by simp)

/-- C6 witness: a failed read yields exactly IOError. -/
theorem claim6_witness : scan_records none = .error .ioError :=
  (claim6 none).1.mpr rfl

/-- C7: the per-record nested feature scan is total (it returns a plain
list, never an error), and both absence conditions — anchor pattern
missing from the record slice, or no `[` after it inside the slice —
yield the empty feature sequence. -/
theorem claim7 (content : List Nat) (start e : Nat) :
    (findPattern ((content.drop start).take (e - start)) featuresPattern = none →
      scan_features_in_range content start e = [])
    ∧ (∀ fpos, findPattern ((content.drop start).take (e - start)) featuresPattern = some fpos →
        findByte (((content.drop start).take (e - start)).drop fpos) 91 = none →
        scan_features_in_range content start e = []) := by
  constructor
  · intro h
    exact scan_features_none h
  · intro fpos h1 h2
    exact scan_features_nobracket h1 h2

/-- C7 witness: the record of scenario 3 has no `"features"` key, and the
nested scan returns the empty sequence on it. -/
theorem claim7_witness : scan_features_in_range buf8 12 36 = [] :=
  (claim7 buf8 12 36).1 (by rfl)

/-- C8: on the buffer `\x7b"records":[\x7b"id":"a records value"\x7d]\x7d`
the text `records` embedded inside the string value is not mistaken for
the anchor: `scan_records` returns exactly one range whose slice is
`\x7b"id":"a records value"\x7d`. -/
theorem claim8 :
    scan_records (some buf8) = .ok [(12, 36)]
    ∧ buf8 = docHead ++ obj8 ++ [93, 125]
    ∧ (buf8.drop 12).take (36 - 12) = obj8 :=
  ⟨by rfl, by rfl, by rfl⟩

/-- C9: projecting the record ranges out of `scan_records_and_features`
yields exactly `scan_records`, on every input (success and error cases
alike): the two top-level scan loops are equivalent. -/
theorem claim9 (file : Option (List Nat)) :
    (scan_records_and_features file).map (List.map fun t => (t.1, t.2.1))
      = scan_records file := by
  cases file with
  | none => rfl
  | some content =>
    rw [scan_records_and_features, scan_records, scan_records_buf]
    rcases h1 : findPattern content recordsPattern with _ | p
    · simp only [h1]
      rfl
    · simp only [h1]
      rcases h2 : findByte (content.drop p) 91 with _ | a
      · simp only [h2]
        rfl
      · simp only [h2, Except.map]
        rw [scanLoopRF_proj]
        simp

/-- C10: all three scan loops terminate within one iteration per
remaining byte (the fuel-indexed forms, which guard every byte access by
the loop bound exactly as the Rust `while` loops do, succeed with fuel
equal to the remaining length and never hit the out-of-bounds marker);
every record range handed to the nested scan lies inside the buffer; and
a canonical document truncated before its closing `]` still yields all
completed ranges rather than an error. -/
theorem claim10 (content : List Nat) :
    (∀ (fuel pos : Nat) (depth : Int) (recStart : Option Nat)
      (inString escapeNext : Bool) (acc : List (Nat × Nat)),
      content.length ≤ pos + fuel →
      scanIdx content fuel pos depth recStart inString escapeNext acc
        = some (scanLoop (content.drop pos) pos depth recStart inString escapeNext acc))
    ∧ (∀ (slice : List Nat) (fuel pos start : Nat) (depth : Int) (featStart : Option Nat)
      (inString escapeNext : Bool) (acc : List (Nat × Nat)),
      slice.length ≤ pos + fuel →
      featIdx slice fuel pos start depth featStart inString escapeNext acc
        = some (featLoop (slice.drop pos) pos start depth featStart inString escapeNext acc))
    ∧ (∀ (fuel pos : Nat) (depth : Int) (recStart : Option Nat)
      (inString escapeNext : Bool) (acc : List (Nat × Nat × List (Nat × Nat))),
      content.length ≤ pos + fuel →
      rfIdx content fuel pos depth recStart inString escapeNext acc
        = some (scanLoopRF content (content.drop pos) pos depth recStart inString escapeNext acc))
    ∧ (∀ res, scan_records_and_features (some content) = .ok res →
        ∀ t ∈ res, t.1 < t.2.1 ∧ t.2.1 ≤ content.length)
    ∧ (∀ objs, (∀ o ∈ objs, IsObj o) →
        scan_records (some (docHead ++ joinComma objs)) = .ok (rangesFrom 12 objs)) := by
  refine ⟨scanIdx_eq content, fun slice => featIdx_eq slice, rfIdx_eq content, ?_, ?_⟩
  · intro res hres t ht
    have h := rf_ok_inv hres t ht
    exact ⟨h.1, h.2.1⟩
  · intro objs h
    exact scan_records_truncated objs h

/-- C10 witness: the fuel-indexed loop on the concrete scenario-2 buffer
with fuel equal to its length reaches the end and computes the ranges. -/
theorem claim10_witness : scanIdx buf1 24 12 0 none false false [] = some [(12, 34)] := by
  have h := (claim10 buf1).1 24 12 0 none false false [] (by decide)
  rw [h]
  decide

end BGC
